import Mathlib

/-!
Shallow embedding of `pkgcore_checks/visibility.py` (the visibility /
dependency-solvability checker) and proofs about it.

The embedding follows the source closely:
* `Atom` carries its canonical string signature (`str(node)` in the source),
  the `blocks` flag and the `category`.
* `Pkg` carries package coordinates, eclasses, and the three dependency
  attributes in already-flattened form (`iflatten_instance(depset, atom)`
  yields the leaf atoms in order).
* `Profile` carries the identity (`key`, `name`) and the three external
  predicates `visible`, `provided` (`provides_repo.match`) and
  `virtualsMatch` (`virtuals.match`).  The two scan-scoped mutable sets
  `cache` (solvable) and `insoluable` live in `ProfState`.
* The shared mutable scan state (`query_cache`, `global_insoluable`, the
  per-profile states and a trace of index searches) is threaded explicitly
  through `ScanState`.
* A Python `KeyError` on `self.query_cache[h]` is modelled by `Option`:
  `none` means the run raised.
-/

namespace Visibility

/-- A dependency atom: canonical string signature (`str(node)`), the
`blocks` flag and the category string. -/
structure Atom where
  sig : String
  blocks : Bool
  category : String
deriving DecidableEq, Repr

/-- A package version: coordinates, eclass tags and the three dependency
attributes, each given by its flattened list of leaf atoms. -/
structure Pkg where
  category : String
  pname : String
  version : String
  eclasses : List String
  depends : List Atom
  rdepends : List Atom
  post_rdepends : List Atom
deriving DecidableEq, Repr

/-- A profile: identity (`key`, `name`) plus the three external predicates. -/
structure Profile where
  key : String
  name : String
  visible : Pkg → Bool
  provided : Atom → Bool
  virtualsMatch : Atom → Bool

/-- Scan-scoped per-profile mutable sets: `cache` is `profile.cache`
(solvable signatures), `insoluable` is `profile.insoluable`. -/
structure ProfState where
  cache : List String
  insoluable : List String
deriving DecidableEq, Repr

/-- Python `set.add`: insert if absent, keeping first-encounter order. -/
def addUniq {α : Type} [DecidableEq α] (s : List α) (a : α) : List α :=
  if a ∈ s then s else s ++ [a]

/-- The `snakeoil.lists.stable_unique` helper: deduplicate keeping first occurrences. -/
def stableUnique {α : Type} [DecidableEq α] (l : List α) : List α :=
  l.foldl addUniq []

/-- Profiles are identified by their `(key, name)` pair. -/
abbrev ProfKey := String × String

/-- The shared mutable scan state: `query_cache`, `global_insoluable`, the
per-profile cache sets, and a trace of the signatures sent to the external
package index (`search_repo.itermatch`). -/
structure ScanState where
  qc : List (String × List Pkg)
  global_insoluable : List String
  profStates : List (ProfKey × ProfState)
  searched : List String
deriving Repr

def initState : ScanState := ⟨[], [], [], []⟩

/-- Read a profile's mutable state (both sets start empty). -/
def getPS (m : List (ProfKey × ProfState)) (p : Profile) : ProfState :=
  (m.lookup (p.key, p.name)).getD ⟨[], []⟩

/-- Write back a profile's mutable state. -/
def setPS (m : List (ProfKey × ProfState)) (p : Profile) (ps : ProfState) :
    List (ProfKey × ProfState) :=
  ((p.key, p.name), ps) :: m

/-- Report records emitted by the check (`VisibleVcsPkg`, `NonExistantDeps`,
`NonsolvableDeps`); each stores the package coordinates plus its evidence.
String fields follow the record constructors in the source. -/
inductive Report where
  | visibleVcs (category pname version arch profile : String)
  | nonExistant (category pname version attr : String) (atoms : List String)
  | nonsolvable (category pname version attr keyword profile : String)
      (potentials : List String)
deriving DecidableEq, Repr

/-- The `atoms` field of a `NonExistantDeps` record. -/
def Report.neAtoms : Report → List String
  | .nonExistant _ _ _ _ atoms => atoms
  | _ => []

/-- The `potentials` field of a `NonsolvableDeps` record. -/
def Report.nsPotentials : Report → List String
  | .nonsolvable _ _ _ _ _ _ potentials => potentials
  | _ => []

/-! ## Existence pass (`feed`, first attribute loop) -/

/-- One step of the existence loop body for a single flattened node.
Mirrors the body of `for node in iflatten_instance(depset, atom)` in
`VisibilityReport.feed`.  `ne` is the `nonexistant` set (encounter-ordered). -/
def existenceStep (search : Atom → List Pkg) (st : ScanState) (ne : List Atom)
    (node : Atom) : ScanState × List Atom :=
  let h := node.sig
  match st.qc.lookup h with
  | none =>
    if h ∈ st.global_insoluable then
      ({ st with qc := (h, ([] : List Pkg)) :: st.qc }, addUniq ne node)
    else
      let ms := search node
      let st := { st with searched := st.searched ++ [h] }
      if ms ≠ [] then
        ({ st with qc := (h, ms) :: st.qc }, ne)
      else if node.blocks = false ∧ node.category ≠ "virtual" then
        ({ st with qc := (h, ([] : List Pkg)) :: st.qc,
                   global_insoluable := addUniq st.global_insoluable h },
         addUniq ne node)
      else (st, ne)
  | some v => if v = [] then (st, addUniq ne node) else (st, ne)

/-- The existence loop over one attribute's flattened node list. -/
def existenceAttr (search : Atom → List Pkg) (st : ScanState) (ne : List Atom) :
    List Atom → ScanState × List Atom
  | [] => (st, ne)
  | node :: rest =>
    let p := existenceStep search st ne node
    existenceAttr search p.1 p.2 rest

/-- Source line `if nonexistant: reporter.add_report(NonExistantDeps(...))`. -/
def existenceReports (pkg : Pkg) (attr : String) (ne : List Atom) : List Report :=
  if ne = [] then []
  else [.nonExistant pkg.category pkg.pname pkg.version attr (ne.map Atom.sig)]

/-- The three dependency attributes in the order of the source's loops. -/
def attrList (pkg : Pkg) : List (String × List Atom) :=
  [("depends", pkg.depends), ("rdepends", pkg.rdepends),
   ("post_rdepends", pkg.post_rdepends)]

/-- The whole existence pass of `feed`: run the existence loop for each of
the three attributes, collecting the `NonExistantDeps` reports. -/
def feedExistenceGo (search : Atom → List Pkg) (pkg : Pkg) (st : ScanState)
    (reps : List Report) : List (String × List Atom) → ScanState × List Report
  | [] => (st, reps)
  | (attr, nodes) :: rest =>
    let p := existenceAttr search st [] nodes
    feedExistenceGo search pkg p.1 (reps ++ existenceReports pkg attr p.2) rest

def feedExistence (search : Atom → List Pkg) (pkg : Pkg) (st : ScanState) :
    ScanState × List Report :=
  feedExistenceGo search pkg st [] (attrList pkg)

/-! ## Solvability pass (`process_depset`) -/

/-- Result of testing one atom of a clause: keep trying (`nextAtom`, the
loop falls through), clause satisfied (`clauseSat`, the loop breaks), or a
`KeyError` from `self.query_cache[h]`. -/
inductive AtomRes where
  | nextAtom (ps : ProfState)
  | clauseSat (ps : ProfState)
  | keyErr
deriving Repr

/-- The body of `for a in required` in `process_depset`. -/
def checkAtom (qc : List (String × List Pkg)) (p : Profile) (ps : ProfState)
    (a : Atom) : AtomRes :=
  let h := a.sig
  if h ∈ ps.insoluable then .nextAtom ps
  else if h ∈ ps.cache then .clauseSat ps
  else if p.provided a then .clauseSat ps
  else if p.virtualsMatch a then .clauseSat { ps with cache := addUniq ps.cache h }
  else if a.category = "virtual" ∧ qc.lookup h = none then
    .nextAtom { ps with insoluable := addUniq ps.insoluable h }
  else
    match qc.lookup h with
    | none => .keyErr
    | some pkgs =>
      if pkgs.any p.visible then .clauseSat { ps with cache := addUniq ps.cache h }
      else .nextAtom { ps with insoluable := addUniq ps.insoluable h }

/-- The `for a in required ... else` loop: returns the updated profile state
and whether the loop broke (clause satisfied) or was exhausted. -/
def checkClause (qc : List (String × List Pkg)) (p : Profile) (ps : ProfState) :
    List Atom → Option (ProfState × Bool)
  | [] => some (ps, false)
  | a :: rest =>
    match checkAtom qc p ps a with
    | .nextAtom ps' => checkClause qc p ps' rest
    | .clauseSat ps' => some (ps', true)
    | .keyErr => none

/-- The body of `for required in csolutions`: skip clauses with a blocking
atom, otherwise run the atom loop and on exhaustion add the whole clause to
the failure set. -/
def processClause (qc : List (String × List Pkg)) (p : Profile)
    (acc : ProfState × List Atom) (required : List Atom) :
    Option (ProfState × List Atom) :=
  if required.any (fun a => a.blocks) then some acc
  else
    match checkClause qc p acc.1 required with
    | some (ps', true) => some (ps', acc.2)
    | some (ps', false) => some (ps', required.foldl addUniq acc.2)
    | none => none

def processProfileGo (qc : List (String × List Pkg)) (p : Profile)
    (acc : ProfState × List Atom) : List (List Atom) →
    Option (ProfState × List Atom)
  | [] => some acc
  | required :: rest =>
    match processClause qc p acc required with
    | some acc' => processProfileGo qc p acc' rest
    | none => none

/-- One profile's pass over all clauses of an evaluated depset, starting
from an empty failure set. -/
def processProfile (qc : List (String × List Pkg)) (p : Profile)
    (ps : ProfState) (csolutions : List (List Atom)) :
    Option (ProfState × List Atom) :=
  processProfileGo qc p (ps, []) csolutions

/-- Build `NonsolvableDeps(pkg, attr, profile.key, profile.name, list(failures))`:
the record keeps `tuple(str(x) for x in stable_unique(horked))`. -/
def nonsolvReport (pkg : Pkg) (attr : String) (p : Profile)
    (failures : List Atom) : Report :=
  .nonsolvable pkg.category pkg.pname pkg.version attr p.key p.name
    ((stableUnique failures).map Atom.sig)

/-- Source `process_depset`: for each profile run the clause loop and emit one
`NonsolvableDeps` exactly when the failure set is non-empty. -/
def process_depset (qc : List (String × List Pkg)) (pkg : Pkg) (attr : String)
    (csolutions : List (List Atom)) : List Profile →
    List (ProfKey × ProfState) →
    Option (List (ProfKey × ProfState) × List Report)
  | [], m => some (m, [])
  | p :: rest, m =>
    match processProfile qc p (getPS m p) csolutions with
    | none => none
    | some (ps', fails) =>
      match process_depset qc pkg attr csolutions rest (setPS m p ps') with
      | none => none
      | some (m', reps) =>
        some (m', (if fails = [] then []
                   else [nonsolvReport pkg attr p fails]) ++ reps)

/-- The per-attribute solvability loop of `feed`: iterate the
`(edepset, profiles)` pairs produced by `collapse_evaluate_depset` (the
evaluated depset is represented directly by its `cnf_solutions()` clause
list), calling `process_depset` for each. -/
def solvAttrGo (qc : List (String × List Pkg)) (pkg : Pkg) (attr : String)
    (m : List (ProfKey × ProfState)) (reps : List Report) :
    List (List (List Atom) × List Profile) →
    Option (List (ProfKey × ProfState) × List Report)
  | [] => some (m, reps)
  | (cs, profs) :: rest =>
    match process_depset qc pkg attr cs profs m with
    | none => none
    | some (m', r) => solvAttrGo qc pkg attr m' (reps ++ r) rest

/-- Modelled from the spec: `DepsetEvaluator.collapseEvaluate(pkg, attr,
rawExpr)` (the `EvaluateDepSetAddon`, not part of the sources) returns the
list of (evaluated clause list, applicable profiles) pairs for a package's
attribute.  It is an opaque collaborator here, passed in as a function. -/
abbrev Collapse := Pkg → String → List (List (List Atom) × List Profile)

def solvAttr (collapse : Collapse) (qc : List (String × List Pkg)) (pkg : Pkg)
    (attr : String) (m : List (ProfKey × ProfState)) :
    Option (List (ProfKey × ProfState) × List Report) :=
  solvAttrGo qc pkg attr m [] (collapse pkg attr)

/-- The whole solvability pass of `feed` (second attribute loop). -/
def feedSolvGo (collapse : Collapse) (qc : List (String × List Pkg)) (pkg : Pkg)
    (m : List (ProfKey × ProfState)) (reps : List Report) : List String →
    Option (List (ProfKey × ProfState) × List Report)
  | [] => some (m, reps)
  | attr :: rest =>
    match solvAttr collapse qc pkg attr m with
    | none => none
    | some (m', r) => feedSolvGo collapse qc pkg m' (reps ++ r) rest

def feedSolv (collapse : Collapse) (qc : List (String × List Pkg)) (pkg : Pkg)
    (m : List (ProfKey × ProfState)) :
    Option (List (ProfKey × ProfState) × List Report) :=
  feedSolvGo collapse qc pkg m [] ["depends", "rdepends", "post_rdepends"]

/-! ## VCS visibility check -/

def vcs_eclasses : List String := ["subversion", "git", "cvs", "darcs"]

/-- Python `arch.lstrip("~")`. -/
def stripTilde (s : String) : String := ⟨s.data.dropWhile (fun c => c = '~')⟩

/-- Source `check_visibility_vcs`: iterate the profile-filter buckets, skip keys
starting with `~` or `-`, and report every profile under which the package
is visible. -/
def check_visibility_vcs (filters : List (String × List Profile)) (pkg : Pkg) :
    List Report :=
  filters.foldl (fun reps kp =>
    if kp.1.startsWith "~" || kp.1.startsWith "-" then reps
    else reps ++ kp.2.filterMap (fun p =>
      if p.visible pkg then
        some (.visibleVcs pkg.category pkg.pname pkg.version
          (stripTilde p.key) p.name)
      else none)) []

/-- The VCS gate at the top of `feed`: the check runs (once) iff some
eclass of the package is a VCS eclass. -/
def vcsPhase (filters : List (String × List Profile)) (pkg : Pkg) : List Report :=
  if pkg.eclasses.any (fun e => e ∈ vcs_eclasses) then
    check_visibility_vcs filters pkg
  else []

/-! ## `feed` and the scan driver -/

/-- Source `VisibilityReport.feed` for one package: VCS gate, existence pass over
the three attributes, then the solvability pass consuming the now-populated
`query_cache`. -/
def feed (search : Atom → List Pkg) (collapse : Collapse)
    (filters : List (String × List Profile)) (pkg : Pkg) (st : ScanState) :
    Option (ScanState × List Report) :=
  let vcsReps := vcsPhase filters pkg
  let p := feedExistence search pkg st
  match feedSolv collapse p.1.qc pkg p.1.profStates with
  | none => none
  | some (m, solvReps) =>
    some ({ p.1 with profStates := m }, vcsReps ++ p.2 ++ solvReps)

/-- A whole scan: feed each package of the stream in order, accumulating
the shared caches and the reports. -/
def runScan (search : Atom → List Pkg) (collapse : Collapse)
    (filters : List (String × List Profile)) (st : ScanState)
    (reps : List Report) : List Pkg → Option (ScanState × List Report)
  | [] => some (st, reps)
  | pkg :: rest =>
    match feed search collapse filters pkg st with
    | none => none
    | some (st', r) => runScan search collapse filters st' (reps ++ r) rest

/-! ## Concrete scenario inputs -/

/-- An index in which nothing matches. -/
def exSearchNone : Atom → List Pkg := fun _ => []

/-- Scenario A's atom: `dev-baz/qux`, non-blocking, non-virtual category. -/
def exAtomQ : Atom := ⟨"dev-baz/qux", false, "dev-baz"⟩

/-- Scenario A's package: `dev-foo/bar-1.0` with `rdepends = "dev-baz/qux"`. -/
def exPkgBar : Pkg := ⟨"dev-foo", "bar", "1.0", [], [], [exAtomQ], []⟩

/-- A profile under which everything is visible and nothing is provided or
virtual-resolved. -/
def exProfP : Profile :=
  ⟨"x86", "default-linux/x86", fun _ => true, fun _ => false, fun _ => false⟩

/-- A depset evaluation for Scenario A: `rdepends` evaluates to the single
clause `[dev-baz/qux]`, applicable to the one profile. -/
def exCollapseA : Collapse := fun _ attr =>
  if attr = "rdepends" then [([[exAtomQ]], [exProfP])] else []

/-- The report stream of a Scenario A feed. -/
def exRunA : List Report :=
  ((feed exSearchNone exCollapseA [] exPkgBar initState).map Prod.snd).getD []

/-- A blocking atom with no repository matches. -/
def exAtomB : Atom := ⟨"!x/y", true, "x"⟩

/-- A package naming the blocking atom in both `depends` and `rdepends`. -/
def exPkgBlk : Pkg := ⟨"c", "p", "1", [], [exAtomB], [exAtomB], []⟩

/-- A virtual-category atom. -/
def exAtomV : Atom := ⟨"virtual/x", false, "virtual"⟩

/-- A profile whose virtuals mapping resolves every atom. -/
def exProfV : Profile := ⟨"x86", "p", fun _ => false, fun _ => false, fun _ => true⟩

/-- Two non-blocking atoms whose signatures are cached with no matches,
listed in an order that is not sorted by signature. -/
def exAtomXB : Atom := ⟨"x/b", false, "x"⟩

def exAtomXA : Atom := ⟨"x/a", false, "x"⟩

def exQcTwo : List (String × List Pkg) := [("x/b", []), ("x/a", [])]

/-- The reports of a `process_depset` call whose one clause fails on both
atoms, `x/b` encountered before `x/a`. -/
def exRunTwo : List Report :=
  ((process_depset exQcTwo exPkgBar "depends" [[exAtomXB, exAtomXA]] [exProfP]
    []).map Prod.snd).getD []

/-- Modelled from the spec: the order behind `sortedUniqueFailureAtoms` —
lexicographic comparison of the signatures' characters (the canonical
string order). -/
def charListLe : List Char → List Char → Bool
  | [], _ => true
  | _ :: _, [] => false
  | a :: as, b :: bs =>
    if a.val < b.val then true
    else if b.val < a.val then false
    else charListLe as bs

/-- Modelled from the spec: `sortedUniqueFailureAtoms`'s comparison on
signatures. -/
def sigLe (a b : String) : Bool := charListLe a.data b.data

/-! ## Spec-side definitions and predicates used by the theorems -/

/-- Modelled from the spec: the verdict of claim C4's per-atom test —
either this atom fails (try the next one) or the clause is satisfied. -/
inductive SpecRes where
  | fails (ps : ProfState)
  | sat (ps : ProfState)
deriving Repr

/-- Translate a spec verdict into the source's loop action. -/
def SpecRes.toRes : SpecRes → AtomRes
  | .fails ps => .nextAtom ps
  | .sat ps => .clauseSat ps

/-- Modelled from the spec: claim C4's per-atom priority (a)–(f), written
from the claim's words.  In step (f) the cached candidate sequence is
scanned (the claim presupposes it is populated). -/
def specAtomTest (qc : List (String × List Pkg)) (p : Profile) (ps : ProfState)
    (a : Atom) : SpecRes :=
  if a.sig ∈ ps.insoluable then .fails ps
  else if a.sig ∈ ps.cache then .sat ps
  else if p.provided a then .sat ps
  else if p.virtualsMatch a then .sat { ps with cache := addUniq ps.cache a.sig }
  else if a.category = "virtual" ∧ qc.lookup a.sig = none then
    .fails { ps with insoluable := addUniq ps.insoluable a.sig }
  else if ((qc.lookup a.sig).getD []).any p.visible then
    .sat { ps with cache := addUniq ps.cache a.sig }
  else .fails { ps with insoluable := addUniq ps.insoluable a.sig }

/-- Modelled from the spec: test the clause's atoms in order, stopping at
the first success (claim C4's wording). -/
def specSolveClause (qc : List (String × List Pkg)) (p : Profile)
    (ps : ProfState) : List Atom → ProfState × Bool
  | [] => (ps, false)
  | a :: rest =>
    match specAtomTest qc p ps a with
    | .sat ps' => (ps', true)
    | .fails ps' => specSolveClause qc p ps' rest

/-- The identity of a profile for report bookkeeping. -/
def profId (p : Profile) : ProfKey := (p.key, p.name)

/-- Recognize a `NonsolvableDeps` record for a given attribute and profile
identity. -/
def isNSfor (attr key name : String) : Report → Bool
  | .nonsolvable _ _ _ a k n _ => a == attr && k == key && n == name
  | _ => false

/-- Recognize a `NonExistantDeps` record for a given attribute. -/
def isNEfor (attr : String) : Report → Bool
  | .nonExistant _ _ _ a _ => a == attr
  | _ => false

/-- Claim C6's invariant: a signature is in `global_insoluable` exactly
when the query cache holds an empty entry for it. -/
def cacheSound (st : ScanState) : Prop :=
  ∀ h : String, h ∈ st.global_insoluable ↔ st.qc.lookup h = some []

/-! ## Counterexamples -/

/-- C1: the claim expects no `NonsolvableDeps` for an attribute whose atom
has zero repo-wide matches, but on Scenario A's input the feed emits the
`NonExistantDeps` *and* a `NonsolvableDeps` for `rdepends` carrying the very
same atom: the existence check does not suppress the solvability check. -/
theorem C1_counterexample :
    Report.nonExistant "dev-foo" "bar" "1.0" "rdepends" ["dev-baz/qux"]
      ∈ exRunA ∧
    Report.nonsolvable "dev-foo" "bar" "1.0" "rdepends" "x86"
      "default-linux/x86" ["dev-baz/qux"] ∈ exRunA := by decide

/-- C3: the claim says an uncached atom's lookup caches its (possibly
empty) result so the index is never queried again; but for a blocking atom
with an empty result nothing is cached, and a second occurrence of the same
signature queries the index a second time. -/
theorem C3_counterexample :
    (feedExistence exSearchNone exPkgBlk initState).1.searched
      = ["!x/y", "!x/y"] ∧
    (feedExistence exSearchNone exPkgBlk initState).1.qc.lookup "!x/y"
      = none := by decide

/-- C7: the claim says a clause of virtual-category atoms absent from the
existence cache is judged unsatisfied for *every* profile; but a profile
whose virtuals mapping matches the atom satisfies the clause. -/
theorem C7_counterexample :
    (checkClause [] exProfV ⟨[], []⟩ [exAtomV]).map Prod.snd = some true := by
  decide

/-- C8: the claim says `NonsolvableDeps` carries its atoms in sorted order;
but the code applies `stable_unique` only, keeping encounter order, and a
clause listing `x/b` before `x/a` yields unsorted potentials. -/
theorem C8_counterexample :
    exRunTwo = [Report.nonsolvable "dev-foo" "bar" "1.0" "depends" "x86"
      "default-linux/x86" ["x/b", "x/a"]] ∧
    ¬ List.Sorted (fun x y => sigLe x y = true) ["x/b", "x/a"] := by decide

/-! ## Helper lemmas about the set operations -/

theorem mem_addUniq {α : Type} [DecidableEq α] {s : List α} {a b : α} :
    a ∈ addUniq s b ↔ a ∈ s ∨ a = b := by
  unfold addUniq
  split
  · constructor
    · exact Or.inl
    · rintro (h | rfl) <;> assumption
  · simp

theorem subset_addUniq {α : Type} [DecidableEq α] (s : List α) (b : α) :
    s ⊆ addUniq s b := fun _ hx => mem_addUniq.mpr (Or.inl hx)

theorem mem_addUniq_self {α : Type} [DecidableEq α] (s : List α) (b : α) :
    b ∈ addUniq s b := mem_addUniq.mpr (Or.inr rfl)

theorem mem_foldl_addUniq {α : Type} [DecidableEq α] (l : List α) :
    ∀ (s : List α) (a : α), a ∈ l.foldl addUniq s ↔ a ∈ s ∨ a ∈ l := by
  induction l with
  | nil => simp
  | cons b t ih =>
    intro s a
    rw [List.foldl_cons, ih, mem_addUniq]
    simp [or_assoc]

theorem nodup_addUniq {α : Type} [DecidableEq α] {s : List α} (h : s.Nodup)
    (b : α) : (addUniq s b).Nodup := by
  unfold addUniq
  split
  · exact h
  · rename_i hb
    simp [List.nodup_append, h, hb]

theorem nodup_foldl_addUniq {α : Type} [DecidableEq α] (l : List α) :
    ∀ {s : List α}, s.Nodup → (l.foldl addUniq s).Nodup := by
  induction l with
  | nil => intro s h; exact h
  | cons b t ih => intro s h; exact ih (nodup_addUniq h b)

/-- On a duplicate-free list, `stable_unique` is the identity. -/
theorem stableUnique_of_nodup {α : Type} [DecidableEq α] (l : List α)
    (h : l.Nodup) : stableUnique l = l := by
  have key : ∀ (t s : List α), t.Nodup → (∀ a ∈ t, a ∉ s) →
      t.foldl addUniq s = s ++ t := by
    intro t
    induction t with
    | nil => intro s _ _; simp
    | cons b u ih =>
      intro s hnd hdisj
      rw [List.foldl_cons]
      have hb : b ∉ s := hdisj b (List.mem_cons_self b u)
      have hstep : addUniq s b = s ++ [b] := by unfold addUniq; simp [hb]
      have hdisj' : ∀ a ∈ u, a ∉ s ++ [b] := by
        intro a ha
        simp only [List.mem_append, List.mem_singleton]
        rintro (h1 | rfl)
        · exact hdisj a (List.mem_cons_of_mem b ha) h1
        · exact (List.nodup_cons.mp hnd).1 ha
      rw [hstep, ih (s ++ [b]) (List.Nodup.of_cons hnd) hdisj']
      simp
  have := key l [] h (by simp)
  simpa [stableUnique] using this

/-! ## Claim C5: blocking exemption -/

/-- Claim C5: a clause containing a blocking atom is skipped outright —
the profile state and failure set are untouched — and every atom in a
final failure set comes from a clause with no blocking atom, so atoms of
blocking clauses never enter a failure set or a `NonsolvableDeps` report. -/
theorem C5_blocking_exemption :
    (∀ (qc : List (String × List Pkg)) (p : Profile)
      (acc : ProfState × List Atom) (required : List Atom),
      (∃ a ∈ required, a.blocks = true) →
      processClause qc p acc required = some acc) ∧
    (∀ (qc : List (String × List Pkg)) (p : Profile) (ps : ProfState)
      (cs : List (List Atom)) (ps' : ProfState) (fails : List Atom),
      processProfile qc p ps cs = some (ps', fails) →
      ∀ a ∈ fails, ∃ req ∈ cs, a ∈ req ∧ ∀ b ∈ req, b.blocks = false) := by
  have hblock : ∀ (qc : List (String × List Pkg)) (p : Profile)
      (acc : ProfState × List Atom) (required : List Atom),
      (∃ a ∈ required, a.blocks = true) →
      processClause qc p acc required = some acc := by
    intro qc p acc required h
    have : required.any (fun a => a.blocks) = true := by
      rw [List.any_eq_true]
      obtain ⟨a, ha, hb⟩ := h
      exact ⟨a, ha, hb⟩
    unfold processClause
    simp [this]
  refine ⟨hblock, ?_⟩
  have go : ∀ (qc : List (String × List Pkg)) (p : Profile)
      (cs : List (List Atom)) (acc : ProfState × List Atom)
      (ps' : ProfState) (fails : List Atom),
      processProfileGo qc p acc cs = some (ps', fails) →
      ∀ a ∈ fails, a ∈ acc.2 ∨
        ∃ req ∈ cs, a ∈ req ∧ ∀ b ∈ req, b.blocks = false := by
    intro qc p cs
    induction cs with
    | nil =>
      intro acc ps' fails h a ha
      unfold processProfileGo at h
      cases h
      exact Or.inl ha
    | cons required rest ih =>
      intro acc ps' fails h a ha
      unfold processProfileGo at h
      cases hc : processClause qc p acc required with
      | none => rw [hc] at h; cases h
      | some acc' =>
        rw [hc] at h
        rcases ih acc' ps' fails h a ha with h1 | ⟨req, hreq, hmem, hnb⟩
        · -- a came out of acc'.2: analyse processClause
          unfold processClause at hc
          by_cases hany : required.any (fun a => a.blocks) = true
          · rw [if_pos hany] at hc
            cases hc
            exact Or.inl h1
          · rw [if_neg hany] at hc
            cases hcl : checkClause qc p acc.1 required with
            | none => rw [hcl] at hc; cases hc
            | some pr =>
              rw [hcl] at hc
              cases pr with
              | mk ps1 sat =>
                cases sat with
                | true => cases hc; exact Or.inl h1
                | false =>
                  cases hc
                  have := (mem_foldl_addUniq required acc.2 a).mp h1
                  rcases this with h2 | h2
                  · exact Or.inl h2
                  · refine Or.inr ⟨required, List.mem_cons_self _ _, h2, ?_⟩
                    intro b hb
                    by_contra hbb
                    exact hany (List.any_eq_true.mpr
                      ⟨b, hb, by simpa using hbb⟩)
        · exact Or.inr ⟨req, List.mem_cons_of_mem _ hreq, hmem, hnb⟩
  intro qc p ps cs ps' fails h a ha
  rcases go qc p cs (ps, []) ps' fails h a ha with h1 | h1
  · cases h1
  · exact h1

/-! ## Claim C10: insoluble entries are sticky -/

/-- Insoluble/cache sets only grow across a single atom test. -/
theorem checkAtom_grows (qc : List (String × List Pkg)) (p : Profile)
    (ps : ProfState) (a : Atom) :
    (∀ ps', checkAtom qc p ps a = .nextAtom ps' →
      ps.insoluable ⊆ ps'.insoluable ∧ ps.cache ⊆ ps'.cache) ∧
    (∀ ps', checkAtom qc p ps a = .clauseSat ps' →
      ps.insoluable ⊆ ps'.insoluable ∧ ps.cache ⊆ ps'.cache) := by
  constructor <;> intro ps' h <;>
    · simp only [checkAtom] at h
      repeat' split at h
      all_goals first
        | (cases h; exact ⟨fun _ hx => hx, fun _ hx => hx⟩)
        | (cases h; exact ⟨fun _ hx => hx, subset_addUniq _ _⟩)
        | (cases h; exact ⟨subset_addUniq _ _, fun _ hx => hx⟩)
        | cases h

/-- Insoluble sets only grow across a clause test. -/
theorem checkClause_insoluable_grows (qc : List (String × List Pkg))
    (p : Profile) : ∀ (required : List Atom) (ps ps' : ProfState) (b : Bool),
    checkClause qc p ps required = some (ps', b) →
    ps.insoluable ⊆ ps'.insoluable := by
  intro required
  induction required with
  | nil =>
    intro ps ps' b h
    unfold checkClause at h
    cases h
    exact fun _ hx => hx
  | cons a rest ih =>
    intro ps ps' b h
    unfold checkClause at h
    cases hc : checkAtom qc p ps a with
    | nextAtom ps1 =>
      rw [hc] at h
      exact Set.Subset.trans ((checkAtom_grows qc p ps a).1 ps1 hc).1
        (ih ps1 ps' b h)
    | clauseSat ps1 =>
      rw [hc] at h
      cases h
      exact ((checkAtom_grows qc p ps a).2 ps' hc).1
    | keyErr => rw [hc] at h; cases h

/-- Insoluble sets only grow across a whole profile pass. -/
theorem processProfileGo_insoluable_grows (qc : List (String × List Pkg))
    (p : Profile) : ∀ (cs : List (List Atom)) (acc : ProfState × List Atom)
    (ps' : ProfState) (fails : List Atom),
    processProfileGo qc p acc cs = some (ps', fails) →
    acc.1.insoluable ⊆ ps'.insoluable := by
  intro cs
  induction cs with
  | nil =>
    intro acc ps' fails h
    unfold processProfileGo at h
    cases h
    exact fun _ hx => hx
  | cons required rest ih =>
    intro acc ps' fails h
    unfold processProfileGo at h
    cases hc : processClause qc p acc required with
    | none => rw [hc] at h; cases h
    | some acc' =>
      rw [hc] at h
      refine Set.Subset.trans ?_ (ih acc' ps' fails h)
      unfold processClause at hc
      split at hc
      · cases hc; exact fun _ hx => hx
      · cases hcl : checkClause qc p acc.1 required with
        | none => rw [hcl] at hc; cases hc
        | some pr =>
          rw [hcl] at hc
          cases pr with
          | mk ps1 sat =>
            have := checkClause_insoluable_grows qc p required acc.1 ps1 sat hcl
            cases sat <;> cases hc <;> exact this

/-- Claim C10: once a signature is in a profile's insoluble set it is never
removed nor re-verified: the atom test short-circuits on membership without
consulting anything else, a whole profile pass only grows the set, and a
clause consisting of such an atom is judged failing for any query cache —
in particular one that meanwhile acquired visible matches — so verdicts can
depend on the order in which packages populated the set. -/
theorem C10_insoluble_sticky :
    (∀ (qc : List (String × List Pkg)) (p : Profile) (ps : ProfState)
      (a : Atom), a.sig ∈ ps.insoluable → checkAtom qc p ps a = .nextAtom ps) ∧
    (∀ (qc : List (String × List Pkg)) (p : Profile) (ps : ProfState)
      (cs : List (List Atom)) (ps' : ProfState) (fails : List Atom),
      processProfile qc p ps cs = some (ps', fails) →
      ps.insoluable ⊆ ps'.insoluable) ∧
    (∀ (qc : List (String × List Pkg)) (p : Profile) (ps : ProfState)
      (fails0 : List Atom) (a : Atom),
      a.sig ∈ ps.insoluable → a.blocks = false →
      processClause qc p (ps, fails0) [a] = some (ps, addUniq fails0 a)) := by
  have hshort : ∀ (qc : List (String × List Pkg)) (p : Profile)
      (ps : ProfState) (a : Atom), a.sig ∈ ps.insoluable →
      checkAtom qc p ps a = .nextAtom ps := by
    intro qc p ps a h
    unfold checkAtom
    simp [h]
  refine ⟨hshort, ?_, ?_⟩
  · intro qc p ps cs ps' fails h
    exact processProfileGo_insoluable_grows qc p cs (ps, []) ps' fails h
  · intro qc p ps fails0 a hmem hnb
    unfold processClause
    have hany : ([a].any fun a => a.blocks) = false := by simp [hnb]
    rw [if_neg (by simp [hany, hnb])]
    have h1 : checkClause qc p ps [a] = some (ps, false) := by
      unfold checkClause
      rw [hshort qc p ps a hmem]
      rfl
    rw [h1]
    simp

/-! ## Claim C6: cache soundness invariant -/

theorem lookup_cons_key {κ β : Type} [BEq κ] [LawfulBEq κ] [DecidableEq κ]
    (k h : κ) (v : β) (l : List (κ × β)) :
    List.lookup h ((k, v) :: l) = if k = h then some v else List.lookup h l := by
  rw [List.lookup_cons]
  by_cases hk : h = k
  · subst hk; simp
  · have hb : (h == k) = false := beq_eq_false_iff_ne.mpr hk
    rw [hb, if_neg (Ne.symm hk)]

theorem cacheSound_init : cacheSound initState := by
  intro h
  simp [initState, List.lookup]

/-- One existence step preserves the invariant: an empty cache entry and the
`global_insoluable` membership are created together. -/
theorem cacheSound_step (search : Atom → List Pkg) (st : ScanState)
    (ne : List Atom) (node : Atom) (hs : cacheSound st) :
    cacheSound (existenceStep search st ne node).1 := by
  unfold existenceStep
  cases hl : st.qc.lookup node.sig with
  | none =>
    simp only [hl]
    by_cases hg : node.sig ∈ st.global_insoluable
    · rw [if_pos hg]
      intro h
      rw [lookup_cons_key]
      by_cases hk : node.sig = h
      · subst hk
        simp [hg]
      · rw [if_neg hk]
        exact hs h
    · rw [if_neg hg]
      by_cases hm : search node = []
      · rw [if_neg (by simpa using hm)]
        by_cases hbv : node.blocks = false ∧ node.category ≠ "virtual"
        · rw [if_pos hbv]
          intro h
          rw [lookup_cons_key]
          by_cases hk : node.sig = h
          · subst hk
            simp [mem_addUniq]
          · rw [if_neg hk, mem_addUniq]
            constructor
            · rintro (h1 | rfl)
              · exact (hs h).mp h1
              · exact absurd rfl hk
            · intro h1
              exact Or.inl ((hs h).mpr h1)
        · rw [if_neg hbv]
          exact hs
      · rw [if_pos (by simpa using hm)]
        intro h
        rw [lookup_cons_key]
        by_cases hk : node.sig = h
        · subst hk
          simp only [if_pos rfl]
          constructor
          · intro h1
            exact absurd h1 hg
          · intro h1
            have h2 : search node = [] := by injection h1
            exact absurd h2 hm
        · rw [if_neg hk]
          exact hs h
  | some v =>
    simp only [hl]
    split <;> exact hs

theorem cacheSound_existenceAttr (search : Atom → List Pkg) :
    ∀ (nodes : List Atom) (st : ScanState) (ne : List Atom), cacheSound st →
    cacheSound (existenceAttr search st ne nodes).1 := by
  intro nodes
  induction nodes with
  | nil => intro st ne hs; exact hs
  | cons node rest ih =>
    intro st ne hs
    unfold existenceAttr
    exact ih _ _ (cacheSound_step search st ne node hs)

theorem cacheSound_feedExistence (search : Atom → List Pkg) (pkg : Pkg)
    (st : ScanState) (hs : cacheSound st) :
    cacheSound (feedExistence search pkg st).1 := by
  have go : ∀ (attrs : List (String × List Atom)) (st : ScanState)
      (reps : List Report), cacheSound st →
      cacheSound (feedExistenceGo search pkg st reps attrs).1 := by
    intro attrs
    induction attrs with
    | nil => intro st reps hs; exact hs
    | cons hd tl ih =>
      intro st reps hs
      cases hd with
      | mk attr nodes =>
        unfold feedExistenceGo
        exact ih _ _ (cacheSound_existenceAttr search nodes st [] hs)
  exact go (attrList pkg) st [] hs

theorem cacheSound_feed (search : Atom → List Pkg) (collapse : Collapse)
    (filters : List (String × List Profile)) (pkg : Pkg) (st st' : ScanState)
    (reps : List Report) (hs : cacheSound st)
    (h : feed search collapse filters pkg st = some (st', reps)) :
    cacheSound st' := by
  simp only [feed] at h
  cases hsv : feedSolv collapse (feedExistence search pkg st).1.qc pkg
      (feedExistence search pkg st).1.profStates with
  | none => rw [hsv] at h; cases h
  | some pr =>
    rw [hsv] at h
    cases pr with
    | mk m solvReps =>
      have hfe := cacheSound_feedExistence search pkg st hs
      simp only [Option.some.injEq, Prod.mk.injEq] at h
      obtain ⟨h1, -⟩ := h
      rw [← h1]
      exact hfe

/-- Claim C6: throughout a scan, a signature is in `GlobalInsolubleSet`
exactly when the existence cache holds an empty entry for it; the invariant
holds initially, is preserved by each single existence step (the two are
set together, with no intermediate state between steps where one holds
without the other), and holds after any prefix of the scan. -/
theorem C6_cache_soundness :
    cacheSound initState ∧
    (∀ (search : Atom → List Pkg) (st : ScanState) (ne : List Atom)
      (node : Atom), cacheSound st →
      cacheSound (existenceStep search st ne node).1) ∧
    (∀ (search : Atom → List Pkg) (collapse : Collapse)
      (filters : List (String × List Profile)) (pkgs : List Pkg)
      (st : ScanState) (reps : List Report) (st' : ScanState)
      (reps' : List Report), cacheSound st →
      runScan search collapse filters st reps pkgs = some (st', reps') →
      cacheSound st') := by
  refine ⟨cacheSound_init, cacheSound_step, ?_⟩
  intro search collapse filters pkgs
  induction pkgs with
  | nil =>
    intro st reps st' reps' hs h
    unfold runScan at h
    simp only [Option.some.injEq, Prod.mk.injEq] at h
    obtain ⟨h1, -⟩ := h
    rw [← h1]
    exact hs
  | cons pkg rest ih =>
    intro st reps st' reps' hs h
    unfold runScan at h
    cases hf : feed search collapse filters pkg st with
    | none => rw [hf] at h; cases h
    | some pr =>
      rw [hf] at h
      cases pr with
      | mk st1 r =>
        exact ih st1 (reps ++ r) st' reps'
          (cacheSound_feed search collapse filters pkg st st1 r hs hf) h

/-- Witness for C6 at a concrete state and step. -/
theorem C6_cache_soundness_witness :
    cacheSound (existenceStep exSearchNone initState [] exAtomQ).1 :=
  C6_cache_soundness.2.1 exSearchNone initState [] exAtomQ C6_cache_soundness.1

/-! ## Claim C4: per-atom priority order -/

/-- The source's atom test agrees with the spec's step (a)–(f) whenever the
non-virtual atoms' signatures are present in the existence cache. -/
theorem checkAtom_eq_spec (qc : List (String × List Pkg)) (p : Profile)
    (ps : ProfState) (a : Atom)
    (hqc : a.category ≠ "virtual" → (qc.lookup a.sig).isSome) :
    checkAtom qc p ps a = (specAtomTest qc p ps a).toRes := by
  by_cases h1 : a.sig ∈ ps.insoluable
  · simp [checkAtom, specAtomTest, SpecRes.toRes, h1]
  by_cases h2 : a.sig ∈ ps.cache
  · simp [checkAtom, specAtomTest, SpecRes.toRes, h1, h2]
  by_cases h3 : p.provided a = true
  · simp [checkAtom, specAtomTest, SpecRes.toRes, h1, h2, h3]
  by_cases h4 : p.virtualsMatch a = true
  · simp [checkAtom, specAtomTest, SpecRes.toRes, h1, h2, h3, h4]
  by_cases h5 : a.category = "virtual" ∧ qc.lookup a.sig = none
  · simp [checkAtom, specAtomTest, SpecRes.toRes, h1, h2, h3, h4, h5]
  cases hl : qc.lookup a.sig with
  | none =>
    by_cases hc : a.category = "virtual"
    · exact absurd ⟨hc, hl⟩ h5
    · have := hqc hc
      rw [hl] at this
      simp at this
  | some pkgs =>
    by_cases h6 : pkgs.any p.visible = true
    · simp [checkAtom, specAtomTest, SpecRes.toRes, h1, h2, h3, h4, h5, hl, h6]
    · simp [checkAtom, specAtomTest, SpecRes.toRes, h1, h2, h3, h4, h5, hl, h6]

/-- Claim C4: for a clause with no blocking atom, the checker tests the
atoms in order with the per-atom priority (a)–(f) of the spec, stopping at
the first success — the source's clause loop computes exactly the spec's
`specSolveClause` (the existence cache being populated for the non-virtual
atoms, as the existence pass guarantees). -/
theorem C4_atom_priority (qc : List (String × List Pkg)) (p : Profile) :
    ∀ (required : List Atom) (ps : ProfState),
    (∀ a ∈ required, a.blocks = false) →
    (∀ a ∈ required, a.category ≠ "virtual" → (qc.lookup a.sig).isSome) →
    checkClause qc p ps required = some (specSolveClause qc p ps required) := by
  intro required
  induction required with
  | nil => intro ps _ _; rfl
  | cons a rest ih =>
    intro ps hb hq
    have hstep := checkAtom_eq_spec qc p ps a (hq a (List.mem_cons_self a rest))
    unfold checkClause specSolveClause
    rw [hstep]
    cases specAtomTest qc p ps a with
    | sat ps' => simp [SpecRes.toRes]
    | fails ps' =>
      simp only [SpecRes.toRes]
      exact ih ps' (fun x hx => hb x (List.mem_cons_of_mem a hx))
        (fun x hx => hq x (List.mem_cons_of_mem a hx))

/-- Witness for C4 at a concrete clause and profile. -/
theorem C4_atom_priority_witness :
    (∀ a ∈ [exAtomXB], a.blocks = false) ∧
    (∀ a ∈ [exAtomXB], a.category ≠ "virtual" →
      (exQcTwo.lookup a.sig).isSome) ∧
    checkClause exQcTwo exProfP ⟨[], []⟩ [exAtomXB] =
      some (specSolveClause exQcTwo exProfP ⟨[], []⟩ [exAtomXB]) :=
  ⟨by decide, by decide,
    C4_atom_priority exQcTwo exProfP [exAtomXB] ⟨[], []⟩ (by decide) (by decide)⟩

/-! ## Claim C7 (amended): virtual deferral -/

/-- Claim C7 (amended): a clause all of whose members are non-blocking
virtual-category atoms absent from the existence cache *and* not provided,
not matched by the profile's virtuals, and not already in the profile's
solvable cache, is judged unsatisfied for every profile; and the
solvability pass performs no index search at all — the search trace after a
feed is exactly the trace after its existence pass. -/
theorem C7_virtual_deferral (qc : List (String × List Pkg)) (p : Profile) :
    (∀ (required : List Atom) (ps : ProfState),
      (∀ a ∈ required, a.category = "virtual" ∧ qc.lookup a.sig = none ∧
        p.provided a = false ∧ p.virtualsMatch a = false ∧ a.sig ∉ ps.cache) →
      ∃ ps', checkClause qc p ps required = some (ps', false) ∧
        ps'.cache = ps.cache) ∧
    (∀ (search : Atom → List Pkg) (collapse : Collapse)
      (filters : List (String × List Profile)) (pkg : Pkg)
      (st st' : ScanState) (reps : List Report),
      feed search collapse filters pkg st = some (st', reps) →
      st'.searched = (feedExistence search pkg st).1.searched) := by
  constructor
  · intro required
    induction required with
    | nil => intro ps _; exact ⟨ps, rfl, rfl⟩
    | cons a rest ih =>
      intro ps hyp
      obtain ⟨hcat, hlook, hprov, hvirt, hcache⟩ :=
        hyp a (List.mem_cons_self a rest)
      by_cases hins : a.sig ∈ ps.insoluable
      · have hstep : checkAtom qc p ps a = .nextAtom ps := by
          unfold checkAtom
          simp [hins]
        obtain ⟨ps', h1, h2⟩ :=
          ih ps (fun x hx => hyp x (List.mem_cons_of_mem a hx))
        refine ⟨ps', ?_, h2⟩
        unfold checkClause
        rw [hstep]
        exact h1
      · have hstep : checkAtom qc p ps a =
            .nextAtom { ps with insoluable := addUniq ps.insoluable a.sig } := by
          unfold checkAtom
          simp [hins, hcache, hprov, hvirt, hcat, hlook]
        obtain ⟨ps', h1, h2⟩ :=
          ih { ps with insoluable := addUniq ps.insoluable a.sig }
            (fun x hx => hyp x (List.mem_cons_of_mem a hx))
        refine ⟨ps', ?_, h2⟩
        unfold checkClause
        rw [hstep]
        exact h1
  · intro search collapse filters pkg st st' reps h
    simp only [feed] at h
    cases hsv : feedSolv collapse (feedExistence search pkg st).1.qc pkg
        (feedExistence search pkg st).1.profStates with
    | none => rw [hsv] at h; cases h
    | some pr =>
      rw [hsv] at h
      cases pr with
      | mk m solvReps =>
        simp only [Option.some.injEq, Prod.mk.injEq] at h
        obtain ⟨h1, -⟩ := h
        rw [← h1]

/-- Witness for C7 at a concrete all-virtual clause. -/
theorem C7_virtual_deferral_witness :
    (∀ a ∈ [exAtomV], a.category = "virtual" ∧
      (([] : List (String × List Pkg)).lookup a.sig) = none ∧
      exProfP.provided a = false ∧ exProfP.virtualsMatch a = false ∧
      a.sig ∉ ([] : List String)) ∧
    ∃ ps', checkClause [] exProfP ⟨[], []⟩ [exAtomV] = some (ps', false) ∧
      ps'.cache = ([] : List String) :=
  ⟨by decide, (C7_virtual_deferral [] exProfP).1 [exAtomV] ⟨[], []⟩ (by decide)⟩

/-- Witness for C5: a clause with a blocking atom is skipped outright. -/
theorem C5_blocking_exemption_witness :
    (∃ a ∈ [exAtomQ, exAtomB], a.blocks = true) ∧
    processClause [] exProfP (⟨[], []⟩, []) [exAtomQ, exAtomB]
      = some (⟨[], []⟩, []) :=
  ⟨by decide, C5_blocking_exemption.1 [] exProfP (⟨[], []⟩, [])
    [exAtomQ, exAtomB] (by decide)⟩

/-- Witness for C10: a signature already insoluble makes the clause fail
even against a query cache holding a visible match. -/
theorem C10_insoluble_sticky_witness :
    exAtomQ.sig ∈ (ProfState.mk [] ["dev-baz/qux"]).insoluable ∧
    exAtomQ.blocks = false ∧
    processClause [("dev-baz/qux", [exPkgBar])] exProfP
      (⟨[], ["dev-baz/qux"]⟩, []) [exAtomQ]
      = some (⟨[], ["dev-baz/qux"]⟩, addUniq [] exAtomQ) :=
  ⟨by decide, by decide,
    C10_insoluble_sticky.2.2 [("dev-baz/qux", [exPkgBar])] exProfP
      ⟨[], ["dev-baz/qux"]⟩ [] exAtomQ (by decide) (by decide)⟩

/-! ## Claim C3 (amended): the uncached-atom lookup -/

/-- Claim C3 (amended): for an atom whose signature is neither cached nor
already in `GlobalInsolubleSet`, the existence lookup queries the index
exactly once; a non-empty result is cached; an empty result is cached —
with the signature inserted into `GlobalInsolubleSet` in the same step —
only when the atom does not block and its category is not "virtual"; an
empty result for a blocking or virtual-category atom is not cached at all
(so the index can be queried again later for that signature). -/
theorem C3_lookup_once (search : Atom → List Pkg) (st : ScanState)
    (ne : List Atom) (node : Atom)
    (hmiss : st.qc.lookup node.sig = none)
    (hglob : node.sig ∉ st.global_insoluable) :
    (existenceStep search st ne node).1.searched = st.searched ++ [node.sig] ∧
    (search node ≠ [] →
      (existenceStep search st ne node).1.qc.lookup node.sig
          = some (search node) ∧
      (existenceStep search st ne node).1.global_insoluable
          = st.global_insoluable) ∧
    (search node = [] → node.blocks = false → node.category ≠ "virtual" →
      (existenceStep search st ne node).1.qc.lookup node.sig = some [] ∧
      node.sig ∈ (existenceStep search st ne node).1.global_insoluable) ∧
    (search node = [] → (node.blocks = true ∨ node.category = "virtual") →
      (existenceStep search st ne node).1.qc = st.qc ∧
      (existenceStep search st ne node).1.global_insoluable
          = st.global_insoluable) := by
  unfold existenceStep
  simp only [hmiss, if_neg hglob]
  by_cases hm : search node = []
  · rw [if_neg (by simpa using hm)]
    by_cases hbv : node.blocks = false ∧ node.category ≠ "virtual"
    · rw [if_pos hbv]
      refine ⟨rfl, ?_, ?_, ?_⟩
      · intro hne
        exact absurd hm hne
      · intro _ _ _
        refine ⟨?_, ?_⟩
        · rw [lookup_cons_key, if_pos rfl]
        · exact mem_addUniq_self _ _
      · intro _ hor
        rcases hor with h1 | h1
        · rw [hbv.1] at h1
          cases h1
        · exact absurd h1 hbv.2
    · rw [if_neg hbv]
      refine ⟨rfl, ?_, ?_, ?_⟩
      · intro hne
        exact absurd hm hne
      · intro _ hb hc
        exact absurd ⟨hb, hc⟩ hbv
      · intro _ _
        exact ⟨rfl, rfl⟩
  · rw [if_pos (by simpa using hm)]
    refine ⟨rfl, ?_, ?_, ?_⟩
    · intro _
      refine ⟨?_, rfl⟩
      rw [lookup_cons_key, if_pos rfl]
    · intro h1
      exact absurd h1 hm
    · intro h1
      exact absurd h1 hm

/-- Witness for C3 at the blocking atom with an empty search result. -/
theorem C3_lookup_once_witness :
    initState.qc.lookup exAtomB.sig = none ∧
    exAtomB.sig ∉ initState.global_insoluable ∧
    ((existenceStep exSearchNone initState [] exAtomB).1.searched
        = initState.searched ++ [exAtomB.sig] ∧
     (exSearchNone exAtomB ≠ [] →
       (existenceStep exSearchNone initState [] exAtomB).1.qc.lookup
           exAtomB.sig = some (exSearchNone exAtomB) ∧
       (existenceStep exSearchNone initState [] exAtomB).1.global_insoluable
           = initState.global_insoluable) ∧
     (exSearchNone exAtomB = [] → exAtomB.blocks = false →
        exAtomB.category ≠ "virtual" →
       (existenceStep exSearchNone initState [] exAtomB).1.qc.lookup
           exAtomB.sig = some [] ∧
       exAtomB.sig ∈
         (existenceStep exSearchNone initState [] exAtomB).1.global_insoluable) ∧
     (exSearchNone exAtomB = [] →
        (exAtomB.blocks = true ∨ exAtomB.category = "virtual") →
       (existenceStep exSearchNone initState [] exAtomB).1.qc = initState.qc ∧
       (existenceStep exSearchNone initState [] exAtomB).1.global_insoluable
           = initState.global_insoluable)) :=
  ⟨by decide, by decide,
    C3_lookup_once exSearchNone initState [] exAtomB (by decide) (by decide)⟩

/-! ## Claim C9: the VCS visibility check -/

/-- Rewrite the report-accumulating fold of `check_visibility_vcs` as a
`flatMap`, for membership reasoning. -/
theorem cvv_eq_flatMap (filters : List (String × List Profile)) (pkg : Pkg) :
    check_visibility_vcs filters pkg = filters.flatMap (fun kp =>
      if kp.1.startsWith "~" || kp.1.startsWith "-" then []
      else kp.2.filterMap (fun p =>
        if p.visible pkg then
          some (.visibleVcs pkg.category pkg.pname pkg.version
            (stripTilde p.key) p.name)
        else none)) := by
  have go : ∀ (l : List (String × List Profile)) (init : List Report),
      l.foldl (fun reps kp =>
        if kp.1.startsWith "~" || kp.1.startsWith "-" then reps
        else reps ++ kp.2.filterMap (fun p =>
          if p.visible pkg then
            some (.visibleVcs pkg.category pkg.pname pkg.version
              (stripTilde p.key) p.name)
          else none)) init
      = init ++ l.flatMap (fun kp =>
          if kp.1.startsWith "~" || kp.1.startsWith "-" then []
          else kp.2.filterMap (fun p =>
            if p.visible pkg then
              some (.visibleVcs pkg.category pkg.pname pkg.version
                (stripTilde p.key) p.name)
            else none)) := by
    intro l
    induction l with
    | nil => intro init; simp
    | cons kp rest ih =>
      intro init
      rw [List.foldl_cons, ih, List.flatMap_cons]
      by_cases hg : kp.1.startsWith "~" || kp.1.startsWith "-"
      · rw [if_pos hg, if_pos hg]
        simp
      · rw [if_neg hg, if_neg hg]
        simp
  unfold check_visibility_vcs
  rw [go]
  simp

/-- Claim C9: `VisibleVcsPkg` reports are produced exactly when the
package has a VCS eclass, for exactly the profiles under a stable (no `~`,
no `-`) key for which the package is visible; non-VCS packages and
unstable or masked keys never produce one. -/
theorem C9_vcs_visible (filters : List (String × List Profile)) (pkg : Pkg)
    (hkeys : ∀ kp ∈ filters, ∀ p ∈ kp.2, p.key = kp.1) :
    ((∀ e ∈ pkg.eclasses, e ∉ vcs_eclasses) → vcsPhase filters pkg = []) ∧
    (∀ r : Report, r ∈ vcsPhase filters pkg ↔
      (∃ e ∈ pkg.eclasses, e ∈ vcs_eclasses) ∧
      ∃ kp ∈ filters, ∃ p ∈ kp.2,
        p.key.startsWith "~" = false ∧ p.key.startsWith "-" = false ∧
        p.visible pkg = true ∧
        r = Report.visibleVcs pkg.category pkg.pname pkg.version
          (stripTilde p.key) p.name) := by
  have hgate : (pkg.eclasses.any fun e => e ∈ vcs_eclasses) = true ↔
      ∃ e ∈ pkg.eclasses, e ∈ vcs_eclasses := by
    rw [List.any_eq_true]
    simp
  constructor
  · intro hnone
    unfold vcsPhase
    rw [if_neg]
    intro hany
    obtain ⟨e, he, hv⟩ := hgate.mp hany
    exact hnone e he hv
  · intro r
    by_cases hg : (pkg.eclasses.any fun e => e ∈ vcs_eclasses) = true
    · unfold vcsPhase
      rw [if_pos hg, cvv_eq_flatMap]
      rw [List.mem_flatMap]
      constructor
      · rintro ⟨kp, hkp, hr⟩
        by_cases hguard : kp.1.startsWith "~" || kp.1.startsWith "-"
        · rw [if_pos hguard] at hr
          cases hr
        · rw [if_neg hguard] at hr
          obtain ⟨p, hp, heq⟩ := List.mem_filterMap.mp hr
          by_cases hvis : p.visible pkg
          · rw [if_pos hvis] at heq
            have hkey := hkeys kp hkp p hp
            have hor : kp.1.startsWith "~" = false ∧
                kp.1.startsWith "-" = false := by
              cases h1 : kp.1.startsWith "~" <;>
                cases h2 : kp.1.startsWith "-" <;>
                simp_all
            refine ⟨hgate.mp hg, kp, hkp, p, hp, ?_, ?_, by simpa using hvis,
              (Option.some.inj heq).symm⟩
            · rw [hkey]
              exact hor.1
            · rw [hkey]
              exact hor.2
          · rw [if_neg hvis] at heq
            cases heq
      · rintro ⟨-, kp, hkp, p, hp, h1, h2, hvis, rfl⟩
        refine ⟨kp, hkp, ?_⟩
        have hkey := hkeys kp hkp p hp
        rw [if_neg (by rw [← hkey]; simp [h1, h2])]
        refine List.mem_filterMap.mpr ⟨p, hp, ?_⟩
        rw [if_pos (by simpa using hvis)]
    · unfold vcsPhase
      rw [if_neg hg]
      constructor
      · intro hr
        cases hr
      · rintro ⟨hex, -⟩
        exact absurd (hgate.mpr hex) hg

/-- Witness for C9 on a concrete live package and profile set. -/
theorem C9_vcs_visible_witness :
    (∀ kp ∈ [("x86", [exProfP])], ∀ p ∈ kp.2, p.key = kp.1) ∧
    ((∀ e ∈ (Pkg.mk "a" "b" "1" ["git"] [] [] []).eclasses,
        e ∉ vcs_eclasses) →
      vcsPhase [("x86", [exProfP])] (Pkg.mk "a" "b" "1" ["git"] [] [] []) = []) ∧
    (∀ r : Report,
      r ∈ vcsPhase [("x86", [exProfP])] (Pkg.mk "a" "b" "1" ["git"] [] [] []) ↔
      (∃ e ∈ (Pkg.mk "a" "b" "1" ["git"] [] [] []).eclasses,
        e ∈ vcs_eclasses) ∧
      ∃ kp ∈ [("x86", [exProfP])], ∃ p ∈ kp.2,
        p.key.startsWith "~" = false ∧ p.key.startsWith "-" = false ∧
        p.visible (Pkg.mk "a" "b" "1" ["git"] [] [] []) = true ∧
        r = Report.visibleVcs "a" "b" "1" (stripTilde p.key) p.name) :=
  ⟨by decide,
    (C9_vcs_visible [("x86", [exProfP])] (Pkg.mk "a" "b" "1" ["git"] [] [] [])
      (by decide)).1,
    (C9_vcs_visible [("x86", [exProfP])] (Pkg.mk "a" "b" "1" ["git"] [] [] [])
      (by decide)).2⟩

/-! ## Claim C1 (amended): the existence check -/

/-- The nonexistant set only grows across one existence step. -/
theorem existenceStep_ne_mono (search : Atom → List Pkg) (st : ScanState)
    (ne : List Atom) (node : Atom) :
    ne ⊆ (existenceStep search st ne node).2 := by
  unfold existenceStep
  cases hl : st.qc.lookup node.sig with
  | none =>
    simp only [hl]
    split
    · exact subset_addUniq _ _
    · split
      · exact fun _ hx => hx
      · split
        · exact subset_addUniq _ _
        · exact fun _ hx => hx
  | some v =>
    simp only [hl]
    split
    · exact subset_addUniq _ _
    · exact fun _ hx => hx

/-- The nonexistant set only grows across the existence loop. -/
theorem existenceAttr_ne_mono (search : Atom → List Pkg) :
    ∀ (nodes : List Atom) (st : ScanState) (ne : List Atom),
    ne ⊆ (existenceAttr search st ne nodes).2 := by
  intro nodes
  induction nodes with
  | nil => intro st ne; exact fun _ hx => hx
  | cons node rest ih =>
    intro st ne x hx
    unfold existenceAttr
    exact ih _ _ (existenceStep_ne_mono search st ne node hx)

/-- A step on any atom preserves "the entry for `node.sig` is absent or
empty", provided atoms sharing `node`'s signature are `node` itself and
`node`'s search result is empty. -/
theorem existenceStep_pres (search : Atom → List Pkg) (node : Atom)
    (hs : search node = []) (st : ScanState) (ne : List Atom) (a : Atom)
    (hP : st.qc.lookup node.sig = none ∨ st.qc.lookup node.sig = some [])
    (hinj : a.sig = node.sig → a = node) :
    (existenceStep search st ne a).1.qc.lookup node.sig = none ∨
    (existenceStep search st ne a).1.qc.lookup node.sig = some [] := by
  unfold existenceStep
  cases hl : st.qc.lookup a.sig with
  | none =>
    simp only [hl]
    by_cases hg : a.sig ∈ st.global_insoluable
    · rw [if_pos hg]
      by_cases hk : a.sig = node.sig
      · right
        rw [lookup_cons_key, if_pos hk]
      · rw [lookup_cons_key, if_neg hk]
        exact hP
    · rw [if_neg hg]
      by_cases hm : search a = []
      · rw [if_neg (by simpa using hm)]
        by_cases hbv : a.blocks = false ∧ a.category ≠ "virtual"
        · rw [if_pos hbv]
          by_cases hk : a.sig = node.sig
          · right
            rw [lookup_cons_key, if_pos hk]
          · rw [lookup_cons_key, if_neg hk]
            exact hP
        · rw [if_neg hbv]
          exact hP
      · rw [if_pos (by simpa using hm)]
        by_cases hk : a.sig = node.sig
        · exact absurd (hinj hk ▸ hs) hm
        · rw [lookup_cons_key, if_neg hk]
          exact hP
  | some v =>
    simp only [hl]
    split <;> exact hP

/-- A step on `node` itself puts `node` into the nonexistant set when its
entry is absent or empty, its search result is empty, it does not block
and its category is not "virtual". -/
theorem existenceStep_capture (search : Atom → List Pkg) (node : Atom)
    (hs : search node = []) (hb : node.blocks = false)
    (hc : node.category ≠ "virtual") (st : ScanState) (ne : List Atom)
    (hP : st.qc.lookup node.sig = none ∨ st.qc.lookup node.sig = some []) :
    node ∈ (existenceStep search st ne node).2 := by
  unfold existenceStep
  cases hl : st.qc.lookup node.sig with
  | none =>
    simp only [hl]
    by_cases hg : node.sig ∈ st.global_insoluable
    · rw [if_pos hg]
      exact mem_addUniq_self _ _
    · rw [if_neg hg, if_neg (by simp [hs]), if_pos ⟨hb, hc⟩]
      exact mem_addUniq_self _ _
  | some v =>
    simp only [hl]
    rcases hP with h1 | h1
    · rw [hl] at h1
      cases h1
    · rw [hl] at h1
      have hv : v = [] := by injection h1
      rw [if_pos hv]
      exact mem_addUniq_self _ _

/-- Along the existence loop, the absent-or-empty entry property for
`node.sig` is preserved, and an occurrence of `node` is captured into the
nonexistant set. -/
theorem existence_capture (search : Atom → List Pkg) (node : Atom)
    (hs : search node = []) (hb : node.blocks = false)
    (hc : node.category ≠ "virtual") :
    ∀ (nodes : List Atom) (st : ScanState) (ne : List Atom),
    (st.qc.lookup node.sig = none ∨ st.qc.lookup node.sig = some []) →
    (∀ a ∈ nodes, a.sig = node.sig → a = node) →
    ((existenceAttr search st ne nodes).1.qc.lookup node.sig = none ∨
     (existenceAttr search st ne nodes).1.qc.lookup node.sig = some []) ∧
    (node ∈ nodes → node ∈ (existenceAttr search st ne nodes).2) := by
  intro nodes
  induction nodes with
  | nil =>
    intro st ne hP _
    refine ⟨hP, ?_⟩
    intro h
    cases h
  | cons a rest ih =>
    intro st ne hP hinj
    have hPs := existenceStep_pres search node hs st ne a hP
      (hinj a (List.mem_cons_self a rest))
    have hrec := ih (existenceStep search st ne a).1
      (existenceStep search st ne a).2 hPs
      (fun x hx => hinj x (List.mem_cons_of_mem a hx))
    refine ⟨hrec.1, ?_⟩
    intro hm
    rcases List.mem_cons.mp hm with rfl | hm2
    · exact existenceAttr_ne_mono search rest _ _
        (existenceStep_capture search node hs hb hc st ne hP)
    · exact hrec.2 hm2

/-- Count of `NonExistantDeps` records produced for one attribute. -/
theorem existenceReports_countP (pkg : Pkg) (attr attr' : String)
    (ne : List Atom) :
    (existenceReports pkg attr ne).countP (isNEfor attr') =
      if attr = attr' ∧ ne ≠ [] then 1 else 0 := by
  unfold existenceReports
  by_cases h : ne = []
  · simp [h]
  · rw [if_neg h]
    by_cases ha : attr = attr'
    · subst ha
      simp [isNEfor, h, List.countP_cons]
    · simp [isNEfor, ha, h, List.countP_cons,
        beq_eq_false_iff_ne.mpr ha]

/-- Shape of a `NonExistantDeps` record for one attribute. -/
theorem existenceReports_mem (pkg : Pkg) (attr attr' : String)
    (ne : List Atom) :
    ∀ r ∈ existenceReports pkg attr ne, isNEfor attr' r = true →
      attr = attr' ∧ r.neAtoms = ne.map Atom.sig := by
  unfold existenceReports
  split
  · intro r hr
    cases hr
  · intro r hr hpred
    rw [List.mem_singleton] at hr
    subst hr
    refine ⟨?_, rfl⟩
    simpa [isNEfor] using hpred

/-- Claim C1 (amended): for a non-blocking, non-virtual-category atom of
`rdepends` with zero repository-wide matches (signatures within the first
two attributes being canonical for their atoms), the feed's existence pass
emits exactly one `NonExistantDeps` report for `rdepends`, and that report
contains the atom.  (The existence check does not suppress the solvability
check: the atom may additionally appear in `NonsolvableDeps` reports for
the same attribute, as the counterexample shows.) -/
theorem C1_nonexistent_dep (search : Atom → List Pkg) (pkg : Pkg)
    (node : Atom) (hmem : node ∈ pkg.rdepends) (hs : search node = [])
    (hb : node.blocks = false) (hc : node.category ≠ "virtual")
    (hinj : ∀ a ∈ pkg.depends ++ pkg.rdepends, a.sig = node.sig → a = node) :
    (feedExistence search pkg initState).2.countP (isNEfor "rdepends") = 1 ∧
    ∀ r ∈ (feedExistence search pkg initState).2,
      isNEfor "rdepends" r = true → node.sig ∈ r.neAtoms := by
  have hP0 : initState.qc.lookup node.sig = none ∨
      initState.qc.lookup node.sig = some [] := Or.inl rfl
  have h1 := existence_capture search node hs hb hc pkg.depends initState []
    hP0 (fun a ha hsig => hinj a (List.mem_append_left _ ha) hsig)
  have h2 := existence_capture search node hs hb hc pkg.rdepends
    (existenceAttr search initState [] pkg.depends).1 [] h1.1
    (fun a ha hsig => hinj a (List.mem_append_right _ ha) hsig)
  have hcap := h2.2 hmem
  have hne2 : (existenceAttr search
      (existenceAttr search initState [] pkg.depends).1 [] pkg.rdepends).2
        ≠ [] := List.ne_nil_of_mem hcap
  have hfe : feedExistence search pkg initState =
      ((existenceAttr search (existenceAttr search
          (existenceAttr search initState [] pkg.depends).1 [] pkg.rdepends).1
          [] pkg.post_rdepends).1,
        (([] ++ existenceReports pkg "depends"
            (existenceAttr search initState [] pkg.depends).2)
          ++ existenceReports pkg "rdepends"
            (existenceAttr search (existenceAttr search initState []
              pkg.depends).1 [] pkg.rdepends).2)
          ++ existenceReports pkg "post_rdepends"
            (existenceAttr search (existenceAttr search
              (existenceAttr search initState [] pkg.depends).1 []
              pkg.rdepends).1 [] pkg.post_rdepends).2) := rfl
  rw [hfe]
  constructor
  · simp only [List.nil_append, List.countP_append, existenceReports_countP]
    rw [if_neg (by simp), if_pos ⟨trivial, hne2⟩, if_neg (by simp)]
  · intro r hr hpred
    rcases List.mem_append.mp hr with hr1 | hr3
    · rcases List.mem_append.mp hr1 with hr1 | hr2
      · rw [List.nil_append] at hr1
        have := (existenceReports_mem pkg "depends" "rdepends" _ r hr1 hpred).1
        simp at this
      · have := existenceReports_mem pkg "rdepends" "rdepends" _ r hr2 hpred
        rw [this.2]
        exact List.mem_map_of_mem Atom.sig hcap
    · have := (existenceReports_mem pkg "post_rdepends" "rdepends" _ r
        hr3 hpred).1
      simp at this

/-- Witness for C1 at Scenario A's concrete input. -/
theorem C1_nonexistent_dep_witness :
    exAtomQ ∈ exPkgBar.rdepends ∧ exSearchNone exAtomQ = [] ∧
    exAtomQ.blocks = false ∧ exAtomQ.category ≠ "virtual" ∧
    (∀ a ∈ exPkgBar.depends ++ exPkgBar.rdepends,
      a.sig = exAtomQ.sig → a = exAtomQ) ∧
    ((feedExistence exSearchNone exPkgBar initState).2.countP
        (isNEfor "rdepends") = 1 ∧
     ∀ r ∈ (feedExistence exSearchNone exPkgBar initState).2,
       isNEfor "rdepends" r = true → exAtomQ.sig ∈ r.neAtoms) :=
  ⟨by decide, by decide, by decide, by decide, by decide,
    C1_nonexistent_dep exSearchNone exPkgBar exAtomQ (by decide) (by decide)
      (by decide) (by decide) (by decide)⟩

/-! ## Claim C8 (amended): report potentials -/

/-- Every report produced by `process_depset` is the `NonsolvableDeps` of
one of its profiles, built from a non-empty failure set computed by a full
profile pass. -/
theorem process_depset_shape (qc : List (String × List Pkg)) (pkg : Pkg)
    (attr : String) (cs : List (List Atom)) :
    ∀ (profs : List Profile) (m m' : List (ProfKey × ProfState))
      (reps : List Report),
    process_depset qc pkg attr cs profs m = some (m', reps) →
    ∀ r ∈ reps, ∃ p, p ∈ profs ∧ ∃ ps0 ps' fails,
      processProfile qc p ps0 cs = some (ps', fails) ∧ fails ≠ [] ∧
      r = nonsolvReport pkg attr p fails := by
  intro profs
  induction profs with
  | nil =>
    intro m m' reps h r hr
    unfold process_depset at h
    simp only [Option.some.injEq, Prod.mk.injEq] at h
    rw [← h.2] at hr
    cases hr
  | cons p rest ih =>
    intro m m' reps h r hr
    unfold process_depset at h
    cases h1 : processProfile qc p (getPS m p) cs with
    | none => rw [h1] at h; cases h
    | some pr =>
      cases pr with
      | mk ps1 f1 =>
        simp only [h1] at h
        cases h2 : process_depset qc pkg attr cs rest (setPS m p ps1) with
        | none => rw [h2] at h; cases h
        | some pr2 =>
          rw [h2] at h
          cases pr2 with
          | mk m2 reps2 =>
            simp only [Option.some.injEq, Prod.mk.injEq] at h
            rw [← h.2] at hr
            rcases List.mem_append.mp hr with hr1 | hr2
            · by_cases hf : f1 = []
              · rw [if_pos hf] at hr1
                cases hr1
              · rw [if_neg hf] at hr1
                rw [List.mem_singleton] at hr1
                exact ⟨p, List.mem_cons_self _ _, getPS m p, ps1, f1, h1,
                  hf, hr1⟩
            · obtain ⟨q, hq, ps0, ps', fails, hq1, hq2, hq3⟩ :=
                ih _ _ _ h2 r hr2
              exact ⟨q, List.mem_cons_of_mem _ hq, ps0, ps', fails, hq1,
                hq2, hq3⟩

/-- The failure set accumulated by a profile pass never holds duplicates. -/
theorem processProfileGo_fails_nodup (qc : List (String × List Pkg))
    (p : Profile) : ∀ (cs : List (List Atom)) (acc : ProfState × List Atom)
    (ps' : ProfState) (fails : List Atom), acc.2.Nodup →
    processProfileGo qc p acc cs = some (ps', fails) → fails.Nodup := by
  intro cs
  induction cs with
  | nil =>
    intro acc ps' fails hnd h
    unfold processProfileGo at h
    simp only [Option.some.injEq] at h
    rw [h] at hnd
    exact hnd
  | cons required rest ih =>
    intro acc ps' fails hnd h
    unfold processProfileGo at h
    cases hc : processClause qc p acc required with
    | none => rw [hc] at h; cases h
    | some acc' =>
      rw [hc] at h
      refine ih acc' ps' fails ?_ h
      unfold processClause at hc
      split at hc
      · cases hc; exact hnd
      · cases hcl : checkClause qc p acc.1 required with
        | none => rw [hcl] at hc; cases hc
        | some pr =>
          rw [hcl] at hc
          cases pr with
          | mk ps1 sat =>
            cases sat with
            | true => cases hc; exact hnd
            | false =>
              cases hc
              exact nodup_foldl_addUniq required hnd

/-- Claim C8 (amended): every `NonsolvableDeps` report carries the atoms
of a non-empty failure set, deduplicated by `stable_unique` in
first-encounter order — with no duplicate atoms, hence no duplicate
strings once signatures are canonical — but no sorting is applied (the
counterexample exhibits an unsorted report). -/
theorem C8_potentials_unique (qc : List (String × List Pkg)) (pkg : Pkg)
    (attr : String) (cs : List (List Atom)) (profs : List Profile)
    (m m' : List (ProfKey × ProfState)) (reps : List Report)
    (hrun : process_depset qc pkg attr cs profs m = some (m', reps)) :
    ∀ r ∈ reps, ∃ fails : List Atom, fails ≠ [] ∧ fails.Nodup ∧
      r.nsPotentials = fails.map Atom.sig ∧
      ((∀ a ∈ fails, ∀ b ∈ fails, a.sig = b.sig → a = b) →
        r.nsPotentials.Nodup) := by
  intro r hr
  obtain ⟨p, hp, ps0, ps', fails, hpp, hne, rfl⟩ :=
    process_depset_shape qc pkg attr cs profs m m' reps hrun r hr
  have hnd : fails.Nodup :=
    processProfileGo_fails_nodup qc p cs (ps0, []) ps' fails List.nodup_nil hpp
  have hpot : (nonsolvReport pkg attr p fails).nsPotentials
      = fails.map Atom.sig := by
    show (stableUnique fails).map Atom.sig = fails.map Atom.sig
    rw [stableUnique_of_nodup fails hnd]
  refine ⟨fails, hne, hnd, hpot, ?_⟩
  intro hinj
  rw [hpot]
  exact List.Nodup.map_on hinj hnd

/-- Witness for C8 at the concrete two-atom clause. -/
theorem C8_potentials_unique_witness :
    process_depset exQcTwo exPkgBar "depends" [[exAtomXB, exAtomXA]]
        [exProfP] []
      = some ([(("x86", "default-linux/x86"),
          ProfState.mk [] ["x/b", "x/a"])],
        [Report.nonsolvable "dev-foo" "bar" "1.0" "depends" "x86"
          "default-linux/x86" ["x/b", "x/a"]]) ∧
    ∀ r ∈ [Report.nonsolvable "dev-foo" "bar" "1.0" "depends" "x86"
        "default-linux/x86" ["x/b", "x/a"]],
      ∃ fails : List Atom, fails ≠ [] ∧ fails.Nodup ∧
        r.nsPotentials = fails.map Atom.sig ∧
        ((∀ a ∈ fails, ∀ b ∈ fails, a.sig = b.sig → a = b) →
          r.nsPotentials.Nodup) :=
  ⟨by decide,
    C8_potentials_unique exQcTwo exPkgBar "depends" [[exAtomXB, exAtomXA]]
      [exProfP] []
      [(("x86", "default-linux/x86"), ProfState.mk [] ["x/b", "x/a"])]
      [Report.nonsolvable "dev-foo" "bar" "1.0" "depends" "x86"
        "default-linux/x86" ["x/b", "x/a"]] (by decide)⟩

/-! ## Claim C2: one NonsolvableDeps per attribute and profile -/

theorem getPS_setPS_ne (m : List (ProfKey × ProfState)) (p q : Profile)
    (ps : ProfState) (hne : profId p ≠ profId q) :
    getPS (setPS m q ps) p = getPS m p := by
  unfold getPS setPS
  rw [lookup_cons_key, if_neg]
  intro h
  exact hne h.symm

theorem isNSfor_nonsolvReport (pkg : Pkg) (attr key name : String)
    (q : Profile) (fails : List Atom) :
    isNSfor attr key name (nonsolvReport pkg attr q fails) = true ↔
      q.key = key ∧ q.name = name := by
  unfold isNSfor nonsolvReport
  simp [Bool.and_eq_true, beq_iff_eq]

/-- When no profile of the call has a given identity, no report for that
identity appears. -/
theorem process_depset_countP_zero (qc : List (String × List Pkg)) (pkg : Pkg)
    (attr : String) (cs : List (List Atom)) (profs : List Profile)
    (m m' : List (ProfKey × ProfState)) (reps : List Report)
    (key name : String)
    (hrun : process_depset qc pkg attr cs profs m = some (m', reps))
    (hno : ∀ p ∈ profs, ¬(p.key = key ∧ p.name = name)) :
    reps.countP (isNSfor attr key name) = 0 := by
  rw [List.countP_eq_zero]
  intro r hr hpred
  obtain ⟨p, hp, ps0, ps', fails, -, -, rfl⟩ :=
    process_depset_shape qc pkg attr cs profs m m' reps hrun r hr
  exact hno p hp ((isNSfor_nonsolvReport pkg attr key name p fails).mp hpred)

/-- Within one `process_depset` call with duplicate-free profile
identities: the count of `NonsolvableDeps` reports for a profile is one
exactly when the failure set of its complete pass is non-empty (and zero
otherwise), and any such report carries that full failure set. -/
theorem process_depset_per_profile (qc : List (String × List Pkg)) (pkg : Pkg)
    (attr : String) (cs : List (List Atom)) :
    ∀ (profs : List Profile) (m m' : List (ProfKey × ProfState))
      (reps : List Report),
    (profs.map profId).Nodup →
    process_depset qc pkg attr cs profs m = some (m', reps) →
    ∀ p ∈ profs, ∃ ps' fails,
      processProfile qc p (getPS m p) cs = some (ps', fails) ∧
      reps.countP (isNSfor attr p.key p.name)
        = (if fails = [] then 0 else 1) ∧
      ∀ r ∈ reps, isNSfor attr p.key p.name r = true →
        r = nonsolvReport pkg attr p fails := by
  intro profs
  induction profs with
  | nil => intro m m' reps _ _ p hp; cases hp
  | cons q rest ih =>
    intro m m' reps hnd h p hp
    unfold process_depset at h
    cases h1 : processProfile qc q (getPS m q) cs with
    | none => rw [h1] at h; cases h
    | some pr =>
      cases pr with
      | mk ps1 f1 =>
        simp only [h1] at h
        cases h2 : process_depset qc pkg attr cs rest (setPS m q ps1) with
        | none => rw [h2] at h; cases h
        | some pr2 =>
          rw [h2] at h
          cases pr2 with
          | mk m2 reps2 =>
            simp only [Option.some.injEq, Prod.mk.injEq] at h
            obtain ⟨hm, hreps⟩ := h
            rw [List.map_cons, List.nodup_cons] at hnd
            obtain ⟨hqnot, hndrest⟩ := hnd
            rcases List.mem_cons.mp hp with rfl | hp2
            · -- the head profile
              have hz : reps2.countP (isNSfor attr p.key p.name) = 0 := by
                refine process_depset_countP_zero qc pkg attr cs rest _ _ _
                  p.key p.name h2 ?_
                rintro p' hp' ⟨hk, hn⟩
                exact hqnot (List.mem_map.mpr ⟨p', hp',
                  by simp [profId, hk, hn]⟩)
              refine ⟨ps1, f1, h1, ?_, ?_⟩
              · rw [← hreps, List.countP_append, hz]
                by_cases hf : f1 = []
                · rw [if_pos hf, if_pos hf]
                  simp
                · rw [if_neg hf, if_neg hf]
                  have hone : isNSfor attr p.key p.name
                      (nonsolvReport pkg attr p f1) = true :=
                    (isNSfor_nonsolvReport pkg attr p.key p.name p f1).mpr
                      ⟨rfl, rfl⟩
                  simp [List.countP_cons, hone]
              · intro r hr hpred
                rw [← hreps] at hr
                rcases List.mem_append.mp hr with hr1 | hr2
                · by_cases hf : f1 = []
                  · rw [if_pos hf] at hr1
                    cases hr1
                  · rw [if_neg hf] at hr1
                    rw [List.mem_singleton] at hr1
                    exact hr1
                · exact absurd hpred (List.countP_eq_zero.mp hz r hr2)
            · -- a profile of the tail
              have hpid : profId p ≠ profId q := by
                intro hEq
                exact hqnot (List.mem_map.mpr ⟨p, hp2, hEq⟩)
              obtain ⟨ps', fails, hpp, hcount, hmemr⟩ :=
                ih (setPS m q ps1) m2 reps2 hndrest h2 p hp2
              rw [getPS_setPS_ne m p q ps1 hpid] at hpp
              have hzq : ∀ f : List Atom, isNSfor attr p.key p.name
                  (nonsolvReport pkg attr q f) = false := by
                intro f
                rw [Bool.eq_false_iff]
                intro hEq
                obtain ⟨hk, hn⟩ :=
                  (isNSfor_nonsolvReport pkg attr p.key p.name q f).mp hEq
                refine hpid ?_
                show (p.key, p.name) = (q.key, q.name)
                rw [hk, hn]
              refine ⟨ps', fails, hpp, ?_, ?_⟩
              · rw [← hreps, List.countP_append, hcount]
                by_cases hf : f1 = []
                · rw [if_pos hf]
                  simp
                · rw [if_neg hf]
                  simp [List.countP_cons, hzq f1]
              · intro r hr hpred
                rw [← hreps] at hr
                rcases List.mem_append.mp hr with hr1 | hr2
                · exfalso
                  by_cases hf : f1 = []
                  · rw [if_pos hf] at hr1
                    cases hr1
                  · rw [if_neg hf] at hr1
                    rw [List.mem_singleton] at hr1
                    subst hr1
                    rw [hzq f1] at hpred
                    cases hpred
                · exact hmemr r hr2 hpred

/-- Over a whole per-attribute solvability loop whose profile identities
are globally duplicate-free, at most one `NonsolvableDeps` per identity is
emitted. -/
theorem solvAttr_count_le_one (qc : List (String × List Pkg)) (pkg : Pkg)
    (attr key name : String) :
    ∀ (pairs : List (List (List Atom) × List Profile))
      (m : List (ProfKey × ProfState)) (reps0 : List Report)
      (m' : List (ProfKey × ProfState)) (reps' : List Report),
    (pairs.flatMap (fun pr => pr.2.map profId)).Nodup →
    solvAttrGo qc pkg attr m reps0 pairs = some (m', reps') →
    reps'.countP (isNSfor attr key name)
      ≤ reps0.countP (isNSfor attr key name) + 1 ∧
    ((∀ pr ∈ pairs, ∀ p ∈ pr.2, ¬(p.key = key ∧ p.name = name)) →
      reps'.countP (isNSfor attr key name)
        = reps0.countP (isNSfor attr key name)) := by
  intro pairs
  induction pairs with
  | nil =>
    intro m reps0 m' reps' _ h
    unfold solvAttrGo at h
    simp only [Option.some.injEq, Prod.mk.injEq] at h
    rw [← h.2]
    exact ⟨Nat.le_succ _, fun _ => rfl⟩
  | cons hd rest ih =>
    intro m reps0 m' reps' hnd h
    cases hd with
    | mk cs profs =>
      unfold solvAttrGo at h
      cases h1 : process_depset qc pkg attr cs profs m with
      | none => rw [h1] at h; cases h
      | some pr1 =>
        cases pr1 with
        | mk m1 r1 =>
          simp only [h1] at h
          rw [List.flatMap_cons, List.nodup_append] at hnd
          obtain ⟨hndp, hndrest, hdisj⟩ := hnd
          by_cases hex : ∃ p ∈ profs, p.key = key ∧ p.name = name
          · obtain ⟨p, hp, hk, hn⟩ := hex
            obtain ⟨ps', fails, -, hcount, -⟩ :=
              process_depset_per_profile qc pkg attr cs profs m m1 r1 hndp
                h1 p hp
            rw [hk, hn] at hcount
            have hr1le : r1.countP (isNSfor attr key name) ≤ 1 := by
              rw [hcount]
              split <;> omega
            have hnorest : ∀ pr2 ∈ rest, ∀ p' ∈ pr2.2,
                ¬(p'.key = key ∧ p'.name = name) := by
              rintro pr2 hpr2 p' hp' ⟨hk', hn'⟩
              have hmem1 : ((key, name) : ProfKey) ∈ profs.map profId :=
                List.mem_map.mpr ⟨p, hp, by simp [profId, hk, hn]⟩
              have hmem2 : ((key, name) : ProfKey)
                  ∈ rest.flatMap (fun x => x.2.map profId) :=
                List.mem_flatMap.mpr ⟨pr2, hpr2,
                  List.mem_map.mpr ⟨p', hp', by simp [profId, hk', hn']⟩⟩
              exact hdisj hmem1 hmem2
            obtain ⟨-, heq⟩ := ih m1 (reps0 ++ r1) m' reps' hndrest h
            constructor
            · rw [heq hnorest, List.countP_append]
              omega
            · intro hno
              exact absurd ⟨hk, hn⟩
                (hno (cs, profs) (List.mem_cons_self _ _) p hp)
          · have hno1 : ∀ p ∈ profs, ¬(p.key = key ∧ p.name = name) := by
              intro p hp hkn
              exact hex ⟨p, hp, hkn⟩
            have hz : r1.countP (isNSfor attr key name) = 0 :=
              process_depset_countP_zero qc pkg attr cs profs m m1 r1 key
                name h1 hno1
            obtain ⟨hle, heq⟩ := ih m1 (reps0 ++ r1) m' reps' hndrest h
            constructor
            · calc reps'.countP (isNSfor attr key name)
                  ≤ (reps0 ++ r1).countP (isNSfor attr key name) + 1 := hle
                _ = reps0.countP (isNSfor attr key name) + 1 := by
                  rw [List.countP_append, hz]
            · intro hno
              rw [heq (fun pr2 hpr2 => hno pr2 (List.mem_cons_of_mem _ hpr2)),
                List.countP_append, hz]
              omega

/-- Claim C2: per package, attribute and profile, at most one
`NonsolvableDeps` report is emitted — never one per clause or per
evaluated depset — and it is emitted exactly when the failure set
accumulated over the profile's complete clause pass is non-empty, carrying
that final set; across the whole per-attribute loop the bound holds
whenever the evaluator assigns each profile identity to a single evaluated
depset. -/
theorem C2_one_report_per_profile :
    (∀ (qc : List (String × List Pkg)) (pkg : Pkg) (attr : String)
      (cs : List (List Atom)) (profs : List Profile)
      (m m' : List (ProfKey × ProfState)) (reps : List Report),
      (profs.map profId).Nodup →
      process_depset qc pkg attr cs profs m = some (m', reps) →
      ∀ p ∈ profs, ∃ ps' fails,
        processProfile qc p (getPS m p) cs = some (ps', fails) ∧
        reps.countP (isNSfor attr p.key p.name)
          = (if fails = [] then 0 else 1) ∧
        ∀ r ∈ reps, isNSfor attr p.key p.name r = true →
          r = nonsolvReport pkg attr p fails) ∧
    (∀ (collapse : Collapse) (qc : List (String × List Pkg)) (pkg : Pkg)
      (attr : String) (m m' : List (ProfKey × ProfState))
      (reps : List Report) (key name : String),
      ((collapse pkg attr).flatMap (fun pr => pr.2.map profId)).Nodup →
      solvAttr collapse qc pkg attr m = some (m', reps) →
      reps.countP (isNSfor attr key name) ≤ 1) := by
  refine ⟨process_depset_per_profile, ?_⟩
  intro collapse qc pkg attr m m' reps key name hnd hrun
  unfold solvAttr at hrun
  have hle := (solvAttr_count_le_one qc pkg attr key name (collapse pkg attr)
    m [] m' reps hnd hrun).1
  simpa using hle

/-- Witness for C2 at the concrete one-profile call. -/
theorem C2_one_report_per_profile_witness :
    (([exProfP].map profId).Nodup) ∧
    (∀ p ∈ [exProfP], ∃ ps' fails,
      processProfile exQcTwo p (getPS [] p) [[exAtomXB, exAtomXA]]
        = some (ps', fails) ∧
      ([Report.nonsolvable "dev-foo" "bar" "1.0" "depends" "x86"
          "default-linux/x86" ["x/b", "x/a"]].countP
        (isNSfor "depends" p.key p.name)) = (if fails = [] then 0 else 1) ∧
      ∀ r ∈ [Report.nonsolvable "dev-foo" "bar" "1.0" "depends" "x86"
          "default-linux/x86" ["x/b", "x/a"]],
        isNSfor "depends" p.key p.name r = true →
          r = nonsolvReport exPkgBar "depends" p fails) :=
  ⟨by decide,
    C2_one_report_per_profile.1 exQcTwo exPkgBar "depends"
      [[exAtomXB, exAtomXA]] [exProfP] []
      [(("x86", "default-linux/x86"), ProfState.mk [] ["x/b", "x/a"])]
      [Report.nonsolvable "dev-foo" "bar" "1.0" "depends" "x86"
        "default-linux/x86" ["x/b", "x/a"]] (by decide) (by decide)⟩

end Visibility
